import Mathlib

/-!
Verification development for the slate-benchmark repository.

The definitions below are shallow embeddings of the Rust sources:
machine integers (`u64`, `u8`) become `Nat` with explicit `% 2^64`
masking where overflow matters, byte buffers become `List Nat` (each
element a byte value), `HashMap<Position, S>` becomes an association
list with replace-on-insert semantics (so its length equals the number
of distinct keys, as `HashMap::len` does), and fallible or panicking
code returns `Option`.
-/

/-- Embedding of `splitmix64` from `rust/src/lib.rs` (lines 179-184).
The `u64` input is masked to 64 bits on entry; the two `wrapping_mul`
calls are multiplications modulo `2^64`, the xor-shifts cannot
overflow. -/
def splitmix64 (x : Nat) : Nat :=
  let z0 := x % 2 ^ 64
  let z1 := ((z0 ^^^ (z0 >>> 30)) * 0xbf58476d1ce4e5b9) % 2 ^ 64
  let z2 := ((z1 ^^^ (z1 >>> 27)) * 0x94d049bb133111eb) % 2 ^ 64
  z2 ^^^ (z2 >>> 31)

/-- Little-endian byte list of a 64-bit value, the embedding of
`u64::to_le_bytes`. -/
def leBytes8 (x : Nat) : List Nat :=
  [x % 256, x / 256 % 256, x / 256 ^ 2 % 256, x / 256 ^ 3 % 256,
   x / 256 ^ 4 % 256, x / 256 ^ 5 % 256, x / 256 ^ 6 % 256, x / 256 ^ 7 % 256]

/-- Embedding of `u64_to_rand_bytes` from `src/lib.rs` (lines 4-13): it
adds the golden-ratio constant `0x9e3779b97f4a7c15` to the input (plain
`+`, which wraps modulo `2^64` in release builds) before running the
same three mixing rounds as `splitmix64`, and fills the buffer with the
little-endian bytes of the result. -/
def u64_to_rand_bytes (value : Nat) : List Nat :=
  let z0 := (value + 0x9e3779b97f4a7c15) % 2 ^ 64
  let z1 := ((z0 ^^^ (z0 >>> 30)) * 0xbf58476d1ce4e5b9) % 2 ^ 64
  let z2 := ((z1 ^^^ (z1 >>> 27)) * 0x94d049bb133111eb) % 2 ^ 64
  let z3 := z2 ^^^ (z2 >>> 31)
  leBytes8 z3

/-! ### MemKVS (rust/src/lib.rs, lines 10-64)

`MemKVS<S>` wraps a `HashMap<Position, S>`. We embed the map as an
association list whose `insertKV` replaces an existing key in place, so
`lenKV` (the list length) coincides with `HashMap::len`, the number of
distinct keys. -/

/-- Lookup in the association-list embedding of the `HashMap`. -/
def lookupKV {α : Type} : List (Nat × α) → Nat → Option α
  | [], _ => none
  | (k, v) :: rest, p => if k = p then some v else lookupKV rest p

/-- Insert with replace-on-duplicate, the embedding of
`HashMap::insert`. -/
def insertKV {α : Type} : List (Nat × α) → Nat → α → List (Nat × α)
  | [], p, v => [(p, v)]
  | (k, w) :: rest, p, v =>
    if k = p then (p, v) :: rest else (k, w) :: insertKV rest p v

/-- Embedding of `HashMap::len` (number of distinct keys). -/
def lenKV {α : Type} (kvs : List (Nat × α)) : Nat := kvs.length

/-- Embedding of `MemKVS::first` (rust/src/lib.rs lines 36-40): it reads
`kvs.get(&n)` where `n = kvs.len()`, and returns that record together
with `n + 1`. -/
def firstKVS {α : Type} (kvs : List (Nat × α)) : Option α × Nat :=
  (lookupKV kvs (lenKV kvs), lenKV kvs + 1)

/-- Embedding of `MemKVS::last` (rust/src/lib.rs lines 42-46). -/
def lastKVS {α : Type} (kvs : List (Nat × α)) : Option α × Nat :=
  if lenKV kvs = 0 then (none, 1) else (lookupKV kvs (lenKV kvs), lenKV kvs + 1)

/-- Embedding of `MemKVS::put` (rust/src/lib.rs lines 48-52): it inserts
`data` at key `position` and returns `kvs.len() + 1` computed after the
insertion. -/
def putKVS {α : Type} (kvs : List (Nat × α)) (position : Nat) (data : α) :
    List (Nat × α) × Nat :=
  let kvs2 := insertKV kvs position data
  (kvs2, lenKV kvs2 + 1)

/-! Basic association-list lemmas shared by several claims. -/

theorem lookupKV_insert_self {α : Type} (kvs : List (Nat × α)) (p : Nat) (v : α) :
    lookupKV (insertKV kvs p v) p = some v := by
  induction kvs with
  | nil => simp [insertKV, lookupKV]
  | cons hd tl ih =>
    obtain ⟨k, w⟩ := hd
    by_cases hk : k = p
    · simp [insertKV, hk, lookupKV]
    · simp [insertKV, hk, lookupKV, ih]

theorem lookupKV_insert_ne {α : Type} (kvs : List (Nat × α)) (p q : Nat) (v : α)
    (hne : q ≠ p) : lookupKV (insertKV kvs p v) q = lookupKV kvs q := by
  have hpq : ¬ p = q := fun h => hne h.symm
  induction kvs with
  | nil => simp [insertKV, lookupKV, hpq]
  | cons hd tl ih =>
    obtain ⟨k, w⟩ := hd
    by_cases hk : k = p
    · subst hk
      simp [insertKV, lookupKV, hpq]
    · simp only [insertKV, if_neg hk, lookupKV]
      by_cases hq : k = q
      · simp [hq]
      · simp [hq, ih]

theorem length_insertKV_fresh {α : Type} (kvs : List (Nat × α)) (p : Nat) (v : α)
    (hfresh : lookupKV kvs p = none) :
    (insertKV kvs p v).length = kvs.length + 1 := by
  induction kvs with
  | nil => simp [insertKV]
  | cons hd tl ih =>
    obtain ⟨k, w⟩ := hd
    by_cases hk : k = p
    · simp [lookupKV, hk] at hfresh
    · simp only [lookupKV, if_neg hk] at hfresh
      simp [insertKV, hk, ih hfresh]

theorem length_insertKV_le {α : Type} (kvs : List (Nat × α)) (p : Nat) (v : α) :
    (insertKV kvs p v).length ≤ kvs.length + 1 := by
  induction kvs with
  | nil => simp [insertKV]
  | cons hd tl ih =>
    obtain ⟨k, w⟩ := hd
    by_cases hk : k = p
    · simp [insertKV, hk]
    · simp only [insertKV, if_neg hk, List.length_cons]
      omega

/-- C6. The storage state reached by `put(1, 10)` then `put(2, 20)` (each
put at the position the previous call returned, so the stored keys are
exactly 1..2). `first()` returns the record at key `len = 2`, i.e. the
most recent record 20, not the earliest record 10 stored at position 1:
`MemKVS::first` reads `kvs.get(&kvs.len())` instead of `kvs.get(&1)`.
This contradicts the spec (`first()` returns the earliest valid record,
used to read metadata) and the repository's own tests, which need
`BinaryHashTree::new` to read the metadata record written at position 1
through `first()`. -/
theorem c6_first_returns_latest_not_earliest :
    firstKVS (putKVS (putKVS ([] : List (Nat × Nat)) 1 10).1 2 20).1 = (some 20, 3) ∧
    lookupKV (putKVS (putKVS ([] : List (Nat × Nat)) 1 10).1 2 20).1 1 = some 10 ∧
    (some 20 : Option Nat) ≠ some 10 := by
  decide

/-- C7 counterexample. `put(1, 42)` on an empty `MemKVS` stores the
record at key 1 but returns 2: the returned value is the position
following the newly stored record, not the position at which the record
itself is stored, falsifying the claim at this concrete input. -/
theorem c7_counterexample :
    (putKVS ([] : List (Nat × Nat)) 1 42).2 = 2 ∧
    lookupKV (putKVS ([] : List (Nat × Nat)) 1 42).1 1 = some 42 ∧
    (2 : Nat) ≠ 1 := by
  decide

/-- C7 amended: `MemKVS::put(position, record)` stores the record at key
`position` — its first argument is the new record's own position, not
the preceding record's — and returns the position following the newly
stored record (`len + 1` after the insert, which for an append at the
fresh position `len + 1` equals `position + 1`). -/
theorem c7_put_stores_at_position_returns_next {α : Type}
    (kvs : List (Nat × α)) (r : α)
    (hfresh : lookupKV kvs (lenKV kvs + 1) = none) :
    (putKVS kvs (lenKV kvs + 1) r).2 = (lenKV kvs + 1) + 1 ∧
    lookupKV (putKVS kvs (lenKV kvs + 1) r).1 (lenKV kvs + 1) = some r := by
  constructor
  · have h := length_insertKV_fresh kvs (lenKV kvs + 1) r hfresh
    simp only [putKVS, lenKV] at h ⊢
    omega
  · simpa [putKVS] using lookupKV_insert_self kvs (lenKV kvs + 1) r

/-- C7 witness: on the one-record storage `[(1, 10)]`, putting at the
fresh position 2 returns 3 and stores the record at key 2. -/
theorem c7_put_stores_at_position_returns_next_witness :
    (putKVS [((1 : Nat), (10 : Nat))] (lenKV [((1 : Nat), (10 : Nat))] + 1) 42).2 =
      (lenKV [((1 : Nat), (10 : Nat))] + 1) + 1 ∧
    lookupKV (putKVS [((1 : Nat), (10 : Nat))] (lenKV [((1 : Nat), (10 : Nat))] + 1) 42).1
      (lenKV [((1 : Nat), (10 : Nat))] + 1) = some 42 :=
  c7_put_stores_at_position_returns_next [((1 : Nat), (10 : Nat))] 42 (by decide)

/-- C8 counterexample. At input 0 the two generators disagree:
`splitmix64 0 = 0`, so its little-endian bytes are all zero, while
`u64_to_rand_bytes 0` mixes `0 + 0x9e3779b97f4a7c15` and produces a
non-zero byte vector. -/
theorem c8_counterexample :
    u64_to_rand_bytes 0 ≠ leBytes8 (splitmix64 0) := by
  decide

/-- C8 amended: the two generators share the multiplicative constants
`0xbf58476d1ce4e5b9` and `0x94d049bb133111eb` and the shift pattern
30/27/31, but they are not bit-exact equivalents at the same input:
`u64_to_rand_bytes(v)` first adds the SplitMix64 golden-ratio increment
`0x9e3779b97f4a7c15` (wrapping modulo `2^64`) and then applies the
mixer, so it fills the buffer with the little-endian bytes of
`splitmix64((v + 0x9e3779b97f4a7c15) mod 2^64)`. -/
theorem c8_u64_to_rand_bytes_eq_shifted_splitmix64 (v : Nat) :
    u64_to_rand_bytes v = leBytes8 (splitmix64 (v + 0x9e3779b97f4a7c15)) := by
  rfl

/-! ### ZipfDistribution (rust/src/lib.rs, lines 66-108)

The Rust code computes with `f64`. The embedding below models the
floating-point arithmetic exactly over `ℚ`; at the inputs used in the
theorems every `f64` operation is exact in IEEE 754 (`1.0f64.powf(-s)`
is exactly 1, a one-element sum needs no rounding, and the uniform
variate `0 >> 11` divided by `2^53` is exactly 0), so the rational model
and the compiled code agree bit for bit there. `powf` appears only
through the density parameter `pw k`, standing for `(k as f64).powf(-s)`. -/

/-- Running cumulative sums, the embedding of the `sum += p; cdf.push(sum)`
loop of `ZipfDistribution::new`. -/
def cumsum : List ℚ → ℚ → List ℚ
  | [], _ => []
  | x :: rest, acc => (acc + x) :: cumsum rest (acc + x)

/-- Embedding of the cdf construction in `ZipfDistribution::new`
(lib.rs lines 83-92): cumulative sums of `pw 1, …, pw n` normalised by
the final total. -/
def zipfCdf (pw : Nat → ℚ) (n : Nat) : List ℚ :=
  let ps := (List.range n).map (fun i => pw (i + 1))
  let cdf := cumsum ps 0
  let total := ps.sum
  cdf.map (fun p => p / total)

/-- Deterministic model of `slice::binary_search_by` on a sorted slice:
`Sum.inl i` when the element at the insertion point equals the probe
(Rust's `Ok(i)`), otherwise `Sum.inr i` with `i` the insertion point
(Rust's `Err(i)`). On a strictly increasing cdf this is exactly the
result Rust guarantees. -/
def binSearchSorted (cdf : List ℚ) (u : ℚ) : Sum Nat Nat :=
  let i := cdf.countP (fun p => decide (p < u))
  match cdf.get? i with
  | some p => if p = u then Sum.inl i else Sum.inr i
  | none => Sum.inr i

/-- Embedding of `ZipfDistribution::next_u64` (lib.rs lines 97-107):
advance the state with `splitmix64`, form the uniform variate
`(state >> 11) / 2^53`, and map the binary-search result with
`Ok(i) ↦ n - i` and `Err(i) ↦ n - i + 1`. Returns (new state, value). -/
def zipfNext (state n : Nat) (cdf : List ℚ) : Nat × Nat :=
  let st := splitmix64 state
  let u : ℚ := ((st >>> 11 : Nat) : ℚ) / (2 ^ 53 : ℚ)
  let r :=
    match binSearchSorted cdf u with
    | Sum.inl i => n - i
    | Sum.inr i => n - i + 1
  (st, r)

/-- C9. With `n = 1`, `s = 1` (density `pw k = 1/k`, for which every
`f64` operation is exact) and generator state 0, `splitmix64 0 = 0`
gives the uniform variate `u = 0`, which is below `cdf[0] = 1`, so the
binary search yields the insertion point `Err(0)` and `next_u64`
returns `n - 0 + 1 = 2`, outside the contracted range `{1..n} = {1}`. -/
theorem c9_zipf_next_out_of_range :
    (zipfNext 0 1 (zipfCdf (fun k => 1 / (k : ℚ)) 1)).2 = 2 ∧
    ¬ ((zipfNext 0 1 (zipfCdf (fun k => 1 / (k : ℚ)) 1)).2 ≤ 1) := by
  have hcdf : zipfCdf (fun k => 1 / (k : ℚ)) 1 = [1] := by
    norm_num [zipfCdf, cumsum, List.range_succ]
  have hst : splitmix64 0 = 0 := rfl
  have h2 : (zipfNext 0 1 (zipfCdf (fun k => 1 / (k : ℚ)) 1)).2 = 2 := by
    rw [hcdf]
    simp only [zipfNext, hst, Nat.zero_shiftRight, Nat.cast_zero, zero_div]
    norm_num [binSearchSorted, List.countP, List.countP.go]
  exact ⟨h2, by rw [h2]; omega⟩

/-! ### BinaryHashTree (rust/src/hashtree/binary.rs)

Nodes as stored by the perfect binary hash tree. The blake3 digest is a
black-box collision-resistant hash; it is embedded as the free algebra
`HashB`, whose constructors are injective — exactly the consequence of
collision resistance the claims rely on. `HashB.emptyH` stands for the
placeholder digest of the empty input that `create_for_level` writes
before linking children. -/

inductive HashB
  | leafH : List Nat → HashB
  | nodeH : HashB → HashB → HashB
  | emptyH : HashB
deriving DecidableEq

/-- Embedding of `NodeKind` (binary.rs lines 17-21). -/
inductive NodeKindR
  | leafK : List Nat → NodeKindR
  | branchK : Nat → Nat → NodeKindR
deriving DecidableEq

/-- Embedding of `Node` (binary.rs lines 24-30). -/
structure NodeR where
  position : Nat
  index : Nat
  hash : HashB
  kind : NodeKindR
deriving DecidableEq

/-- Little-endian read of an 8-byte list, the embedding of
`read_u64::<LittleEndian>`. -/
def fromLe8 (bs : List Nat) : Nat :=
  match bs with
  | [b0, b1, b2, b3, b4, b5, b6, b7] =>
    b0 + b1 * 256 + b2 * 256 ^ 2 + b3 * 256 ^ 3 + b4 * 256 ^ 4 + b5 * 256 ^ 5 +
      b6 * 256 ^ 6 + b7 * 256 ^ 7
  | _ => 0

/-- Embedding of `MetaInfo::write` (binary.rs lines 116-120): the root
position as 8 little-endian bytes followed by the height as one byte. -/
def metaBytes (root height : Nat) : List Nat :=
  leBytes8 root ++ [height]

/-- Embedding of `MetaInfo::read` (binary.rs lines 122-126): reading a
u64 and then a u8 needs at least 9 bytes; a shorter buffer hits
end-of-file and the surrounding `?` propagates the error (`none`). -/
def metaRead (data : List Nat) : Option (Nat × Nat) :=
  if h9 : 9 ≤ data.length then
    some (fromLe8 (data.take 8), data.get ⟨8, by omega⟩)
  else none

/-- Embedding of `Node::new_leaf` (binary.rs lines 33-37): the hash is
`blake3(data)`, modelled by the injective constructor `HashB.leafH`. -/
def newLeafNode (position index : Nat) (data : List Nat) : NodeR :=
  { position := position, index := index, hash := HashB.leafH data,
    kind := NodeKindR.leafK data }

/-- Node built by the `else` branch of `create_for_level` (binary.rs
lines 203-206): an internal placeholder whose hash is the digest of the
empty input and whose children are `u64::MAX`. -/
def newPlaceholderNode (position index : Nat) : NodeR :=
  { position := position, index := index, hash := HashB.emptyH,
    kind := NodeKindR.branchK (2 ^ 64 - 1) (2 ^ 64 - 1) }

/-- Inner loop of `create_for_level` (binary.rs lines 198-210): build
and store the `cnt` remaining nodes of one level, threading the MemKVS
state and the current position through `put`. Returns the nodes in
order together with the final storage and position. -/
def writeLevel (h level : Nat) (V : Nat → List Nat) :
    Nat → Nat → List (Nat × NodeR) → Nat → List NodeR × List (Nat × NodeR) × Nat
  | 0, _, st, current => ([], st, current)
  | cnt + 1, k, st, current =>
    let index := 2 ^ level + k
    let nd :=
      if level + 1 = h then newLeafNode current index (V (k + 1))
      else newPlaceholderNode current index
    let pr := putKVS st current nd
    let rest := writeLevel h level V cnt (k + 1) pr.1 pr.2
    (nd :: rest.1, rest.2.1, rest.2.2)

/-- Linking loop of `create_for_level` (binary.rs lines 213-219): for
the `k`-th node of this level take children `2k` and `2k+1` of the next
level (`Vec::get(..).unwrap()`, so a missing child is a panic, `none`),
recompute the hash as the combine `H(left, right)` and rewrite the node
at its own position. -/
def linkNodes : List (Nat × NodeR) → List NodeR → List NodeR → Nat →
    Option (List NodeR × List (Nat × NodeR))
  | st, [], _, _ => some ([], st)
  | st, nd :: rest, subs, k =>
    match subs.get? (2 * k), subs.get? (2 * k + 1) with
    | some l, some r =>
      let nd2 := { nd with hash := HashB.nodeH l.hash r.hash,
                           kind := NodeKindR.branchK l.position r.position }
      let st2 := (putKVS st nd2.position nd2).1
      match linkNodes st2 rest subs (k + 1) with
      | some p => some (nd2 :: p.1, p.2)
      | none => none
    | _, _ => none

/-- Embedding of `create_for_level` (binary.rs lines 191-222). The first
argument is structural fuel standing for `h - level`; the caller
(`create`) passes `d = h` with `level = 0` and the recursion keeps
`d + level = h` invariant, so the fuel never runs out on the paths the
source can take. -/
def createForLevel (h : Nat) (V : Nat → List Nat) :
    Nat → Nat → List (Nat × NodeR) → Nat →
    Option (List NodeR × List (Nat × NodeR) × Nat)
  | 0, _, _, _ => none
  | d + 1, level, st, current =>
    let w := writeLevel h level V (2 ^ level) 0 st current
    if level + 1 < h then
      match createForLevel h V d (level + 1) w.2.1 w.2.2 with
      | some s =>
        match linkNodes s.2.1 w.1 s.1 0 with
        | some p => some (p.1, p.2, s.2.2)
        | none => none
      | none => none
    else some w

/-- Embedding of `BinaryHashTree::create` over `MemKVS` (binary.rs lines
162-189): probe `first()` on the empty storage, write a placeholder
metadata record at position 1, write the real metadata (root position
and height) at position 1 again asserting both puts report the same
next position, then write every tree node level by level. -/
def createKVS (h : Nat) (V : Nat → List Nat) : Option (List (Nat × NodeR)) :=
  let st0 : List (Nat × NodeR) := []
  let position_metadata := (firstKVS st0).2
  let meta0 := newLeafNode position_metadata 0 (metaBytes 0 0)
  let p1 := putKVS st0 position_metadata meta0
  let position_root := p1.2
  let meta1 := newLeafNode position_metadata 0 (metaBytes position_root h)
  let p2 := putKVS p1.1 position_metadata meta1
  if position_root = p2.2 then
    match createForLevel h V h 0 p2.1 position_root with
    | some s => some s.2.1
    | none => none
  else none

/-! The node cache (binary.rs lines 224-250). -/

/-- State of the BFS cache-fill loop: the cache under construction and
the pending `VecDeque` of positions. -/
structure CacheSt where
  cache : List (Nat × NodeR)
  queue : List Nat
deriving DecidableEq

/-- One iteration of the inner loop of `create_cache` (binary.rs lines
230-242): pop a position (`unwrap`, so an empty queue is a panic),
read the node (a missing position is a reader failure), push the
children when the budget test passes and the node is a branch, insert
into the cache, and report whether the labeled break fires. -/
def cacheStep (rd : Nat → Option NodeR) (limit : Nat) (s : CacheSt) :
    Option (CacheSt × Bool) :=
  match s.queue with
  | [] => none
  | p :: rest =>
    match rd p with
    | none => none
    | some nd =>
      let queue2 :=
        match nd.kind with
        | NodeKindR.branchK l r =>
          if s.cache.length + rest.length < limit then rest ++ [l, r] else rest
        | _ => rest
      let cache2 := insertKV s.cache p nd
      some (⟨cache2, queue2⟩, cache2.length == limit || queue2.isEmpty)

/-- The inner `for _ in 0..pow2e(level)` loop of `create_cache`; the
boolean records whether `break 'cache_read` fired. -/
def cacheInner (rd : Nat → Option NodeR) (limit : Nat) :
    Nat → CacheSt → Option (CacheSt × Bool)
  | 0, s => some (s, false)
  | c + 1, s =>
    match cacheStep rd limit s with
    | none => none
    | some (s2, true) => some (s2, true)
    | some (s2, false) => cacheInner rd limit c s2

/-- The outer `for level in 0..=height` loop of `create_cache`, over the
list of per-level iteration counts. -/
def cacheLevels (rd : Nat → Option NodeR) (limit : Nat) :
    List Nat → CacheSt → Option CacheSt
  | [], s => some s
  | c :: cs, s =>
    match cacheInner rd limit c s with
    | none => none
    | some (s2, true) => some s2
    | some (s2, false) => cacheLevels rd limit cs s2

/-- Embedding of `BinaryHashTree::create_cache` (binary.rs lines
224-246): BFS from the root with per-level counts `2^0, …, 2^height`. -/
def createCache (rd : Nat → Option NodeR) (height root limit : Nat) :
    Option (List (Nat × NodeR)) :=
  match cacheLevels rd limit ((List.range (height + 1)).map (fun l => 2 ^ l))
      ⟨[], [root]⟩ with
  | some s => some s.cache
  | none => none

/-- Embedding of `BinaryHashTree::load` (binary.rs lines 248-250): try
the cache, fall through to the storage reader on a miss (for `MemKVS`
the reader `unwrap`s, so a missing position is a panic, `none`). -/
def load (cache : List (Nat × NodeR)) (rd : Nat → Option NodeR) (p : Nat) :
    Option NodeR :=
  match lookupKV cache p with
  | some nd => some nd
  | none => rd p

/-- Embedding of `index_to_level_position` (binary.rs lines 347-356);
`u64::BITS - 1 - leading_zeros(index)` is the floor base-2 logarithm. -/
def index_to_level_position (index : Nat) : Nat × Nat :=
  if index = 1 then (0, 1)
  else
    let level := Nat.log2 index
    (level, index - 2 ^ level + 1)

/-- Embedding of `move_left` (binary.rs lines 368-378). -/
def move_left (height ndindex k : Nat) : Bool :=
  let lp := index_to_level_position ndindex
  let subtree_depth := height - lp.1 - 1
  let leaves_per_subtree := 2 ^ subtree_depth
  let first_leaf := (lp.2 - 1) * leaves_per_subtree + 1
  let boundary := first_leaf + leaves_per_subtree / 2
  decide (k < boundary)

/-- The descent loop of `BinaryHashTree::get` (binary.rs lines 329-341),
with structural fuel for the unbounded `loop`; on a well-formed tree of
height `h` the walk visits at most `h` nodes, and `get` passes `h` as
fuel. The outer `none` is an error or a non-terminating walk, which the
claims distinguish from the in-band `Ok(None)`. -/
def getRec (cache : List (Nat × NodeR)) (rd : Nat → Option NodeR)
    (height k : Nat) : Nat → NodeR → Option (Option (List Nat))
  | 0, _ => none
  | fuel + 1, nd =>
    match nd.kind with
    | NodeKindR.leafK data => some (some data)
    | NodeKindR.branchK l r =>
      let pos := if move_left height nd.index k then l else r
      match load cache rd pos with
      | none => none
      | some nd2 => getRec cache rd height k fuel nd2

/-- Embedding of `BinaryHashTree::get` (binary.rs lines 323-343): the
tree size is `pow2e(height - 1)` and an out-of-range index answers
`Ok(None)` before any storage access. -/
def getT (cache : List (Nat × NodeR)) (rd : Nat → Option NodeR)
    (height root k : Nat) : Option (Option (List Nat)) :=
  if k = 0 ∨ 2 ^ (height - 1) < k then some none
  else
    match load cache rd root with
    | none => none
    | some nd => getRec cache rd height k height nd

/-- Embedding of `BinaryHashTree::new` over `MemKVS` (binary.rs lines
302-313): read the metadata record through `Storage::first`, parse root
position and height out of its leaf data, and prefill the cache.
Returns (root, height, cache); every panic or error is `none`. -/
def newBHT (st : List (Nat × NodeR)) (cache_limit : Nat) :
    Option (Nat × Nat × List (Nat × NodeR)) :=
  match (firstKVS st).1 with
  | some nd =>
    match nd.kind with
    | NodeKindR.leafK data =>
      match metaRead data with
      | some m =>
        match createCache (lookupKV st) m.2 m.1 cache_limit with
        | some c => some (m.1, m.2, c)
        | none => none
      | none => none
    | _ => none
  | none => none

/-- Embedding of `BinaryHashTree::create_on_memory` (binary.rs lines
284-288): create the tree with values `splitmix64(i).to_le_bytes()`
over a fresh `MemKVS`, then open it with `new(storage, 1)`. -/
def createOnMemory (h : Nat) : Option (Nat × Nat × List (Nat × NodeR)) :=
  match createKVS h (fun i => leBytes8 (splitmix64 i)) with
  | some st => newBHT st 1
  | none => none

/-- C3. Building the height-1 perfect tree over in-memory storage fails
before any `get` can run: after `create` the MemKVS holds the metadata
record at key 1 and the tree nodes at keys 2..2^h, so `kvs.len() = 2^h`
and `MemKVS::first` — which reads `kvs.get(&kvs.len())` — hands
`BinaryHashTree::new` the last written leaf instead of the metadata
record; `MetaInfo::read` then hits end-of-file on its 8-byte payload.
The repository's own tests (`test_basic_operations`,
`verify_binary_tree` in hashtree/binary/test.rs) require exactly this
construction to succeed for every height 1..=8, so the claim matches
the intended behaviour and the code slips. -/
theorem c3_create_on_memory_fails : createOnMemory 1 = none := by
  decide

/-! ### Invariants of the cache-fill loop -/

/-- Invariant carried through the BFS loop once the root has been
inserted: the cache is strictly below the budget (the loop breaks the
moment it reaches it) and still maps the root position to the root
node. -/
def CacheInv (root : Nat) (rn : NodeR) (limit : Nat) (s : CacheSt) : Prop :=
  s.cache.length < limit ∧ lookupKV s.cache root = some rn

/-- Property of the finished cache claimed by C10. -/
def CachePost (root : Nat) (rn : NodeR) (limit : Nat)
    (c : List (Nat × NodeR)) : Prop :=
  c.length ≤ limit ∧ lookupKV c root = some rn


theorem cacheStep_inv {rd : Nat → Option NodeR} {limit root : Nat} {rn : NodeR}
    (hroot : rd root = some rn) {s s2 : CacheSt} {flag : Bool}
    (hstep : cacheStep rd limit s = some (s2, flag))
    (hinv : CacheInv root rn limit s) :
    (flag = true → CachePost root rn limit s2.cache) ∧
    (flag = false → CacheInv root rn limit s2) := by
  obtain ⟨hlen, hlook⟩ := hinv
  match hq : s.queue with
  | [] => simp [cacheStep, hq] at hstep
  | p :: rest =>
    match hrd : rd p with
    | none => simp [cacheStep, hq, hrd] at hstep
    | some nd =>
      simp only [cacheStep, hq, hrd, Option.some.injEq, Prod.mk.injEq] at hstep
      obtain ⟨hs2, hflag⟩ := hstep
      have hcache2 : s2.cache = insertKV s.cache p nd := by
        rw [← hs2]
      have hlen2 : s2.cache.length ≤ limit := by
        rw [hcache2]
        have := length_insertKV_le s.cache p nd
        omega
      have hlook2 : lookupKV s2.cache root = some rn := by
        rw [hcache2]
        by_cases hp : p = root
        · subst hp
          rw [hroot] at hrd
          obtain rfl : rn = nd := Option.some.inj hrd
          exact lookupKV_insert_self s.cache p rn
        · rw [lookupKV_insert_ne s.cache p root nd fun h => hp h.symm]
          exact hlook
      constructor
      · intro _
        exact ⟨hlen2, hlook2⟩
      · intro hf
        refine ⟨?_, hlook2⟩
        rw [← hflag] at hf
        have hne : s2.cache.length ≠ limit := by
          rcases Bool.or_eq_false_iff.mp hf with ⟨h1, _⟩
          rw [← hs2] at hlen2 ⊢
          simpa using h1
        omega

theorem cacheInner_inv {rd : Nat → Option NodeR} {limit root : Nat} {rn : NodeR}
    (hroot : rd root = some rn) :
    ∀ (cnt : Nat) (s s2 : CacheSt) (flag : Bool),
      cacheInner rd limit cnt s = some (s2, flag) →
      CacheInv root rn limit s →
      (flag = true → CachePost root rn limit s2.cache) ∧
      (flag = false → CacheInv root rn limit s2) := by
  intro cnt
  induction cnt with
  | zero =>
    intro s s2 flag hrun hinv
    simp only [cacheInner, Option.some.injEq, Prod.mk.injEq] at hrun
    obtain ⟨rfl, rfl⟩ := hrun
    refine ⟨?_, fun _ => hinv⟩
    intro h
    cases h
  | succ c ih =>
    intro s s2 flag hrun hinv
    simp only [cacheInner] at hrun
    match hstep : cacheStep rd limit s with
    | none => rw [hstep] at hrun; cases hrun
    | some (s3, true) =>
      rw [hstep] at hrun
      simp only [Option.some.injEq, Prod.mk.injEq] at hrun
      obtain ⟨rfl, rfl⟩ := hrun
      have hstepinv := (cacheStep_inv hroot hstep hinv).1 rfl
      refine ⟨fun _ => hstepinv, ?_⟩
      intro h
      cases h
    | some (s3, false) =>
      rw [hstep] at hrun
      simp only at hrun
      have hinv3 := (cacheStep_inv hroot hstep hinv).2 rfl
      exact ih s3 s2 flag hrun hinv3

theorem cacheLevels_inv {rd : Nat → Option NodeR} {limit root : Nat} {rn : NodeR}
    (hroot : rd root = some rn) :
    ∀ (cs : List Nat) (s sf : CacheSt),
      cacheLevels rd limit cs s = some sf →
      CacheInv root rn limit s →
      CachePost root rn limit sf.cache := by
  intro cs
  induction cs with
  | nil =>
    intro s sf hrun hinv
    simp only [cacheLevels, Option.some.injEq] at hrun
    obtain rfl := hrun
    exact ⟨Nat.le_of_lt hinv.1, hinv.2⟩
  | cons c cs ih =>
    intro s sf hrun hinv
    simp only [cacheLevels] at hrun
    match hstep : cacheInner rd limit c s with
    | none => rw [hstep] at hrun; cases hrun
    | some (s2, true) =>
      rw [hstep] at hrun
      simp only [Option.some.injEq] at hrun
      obtain rfl := hrun
      exact (cacheInner_inv hroot c s s2 true hstep hinv).1 rfl
    | some (s2, false) =>
      rw [hstep] at hrun
      simp only at hrun
      exact ih s2 sf hrun ((cacheInner_inv hroot c s s2 false hstep hinv).2 rfl)

theorem cacheLevels_first {rd : Nat → Option NodeR} {limit root : Nat} {rn : NodeR}
    (hrd : rd root = some rn) (hlim : 1 ≤ limit) :
    ∀ (cs : List Nat) (sf : CacheSt),
      cacheLevels rd limit (1 :: cs) ⟨[], [root]⟩ = some sf →
      CachePost root rn limit sf.cache := by
  intro cs sf hrun
  have hlook1 : lookupKV [(root, rn)] root = some rn := by simp [lookupKV]
  have hpos : 0 < limit := hlim
  match hkind : rn.kind with
  | NodeKindR.leafK data =>
    have hstep : cacheStep rd limit ⟨[], [root]⟩ = some (⟨[(root, rn)], []⟩, true) := by
      simp [cacheStep, hrd, hkind, insertKV]
    simp only [cacheLevels, cacheInner, hstep, Option.some.injEq] at hrun
    obtain rfl := hrun
    exact ⟨by simpa using hlim, hlook1⟩
  | NodeKindR.branchK l r =>
    have hstep : cacheStep rd limit ⟨[], [root]⟩ =
        some (⟨[(root, rn)], [l, r]⟩, ((1 : Nat) == limit)) := by
      simp [cacheStep, hrd, hkind, insertKV, hpos]
    by_cases hl1 : limit = 1
    · have hflag : ((1 : Nat) == limit) = true := by simp [hl1]
      rw [hflag] at hstep
      simp only [cacheLevels, cacheInner, hstep, Option.some.injEq] at hrun
      obtain rfl := hrun
      exact ⟨by simpa using hlim, hlook1⟩
    · have hflag : ((1 : Nat) == limit) = false := by
        simp [hl1]
        omega
      rw [hflag] at hstep
      simp only [cacheLevels, cacheInner, hstep] at hrun
      have hinv : CacheInv root rn limit ⟨[(root, rn)], [l, r]⟩ := by
        refine ⟨?_, hlook1⟩
        simp only [List.length_cons, List.length_nil]
        omega
      exact cacheLevels_inv hrd cs _ sf hrun hinv

/-- C10. When `create_cache` succeeds with a budget `limit ≥ 1`, the
cache it builds holds at most `limit` nodes — the loop breaks as soon
as the budget is reached — and it always holds the root node, which is
inserted on the very first iteration and never evicted. -/
theorem c10_cache_bounded_and_contains_root
    (rd : Nat → Option NodeR) (height root limit : Nat)
    (c : List (Nat × NodeR)) (hlim : 1 ≤ limit)
    (hsucc : createCache rd height root limit = some c) :
    c.length ≤ limit ∧ ∃ rn, rd root = some rn ∧ lookupKV c root = some rn := by
  simp only [createCache] at hsucc
  have hcounts : (List.range (height + 1)).map (fun l => (2 : Nat) ^ l) =
      1 :: (List.range height).map (fun l => 2 ^ (l + 1)) := by
    rw [List.range_succ_eq_map]
    simp [List.map_map, Function.comp]
  rw [hcounts] at hsucc
  match hlv : cacheLevels rd limit (1 :: (List.range height).map (fun l => 2 ^ (l + 1)))
      ⟨[], [root]⟩ with
  | none => rw [hlv] at hsucc; cases hsucc
  | some sf =>
    rw [hlv] at hsucc
    simp only [Option.some.injEq] at hsucc
    obtain rfl := hsucc
    match hrd : rd root with
    | none =>
      simp only [cacheLevels, cacheInner, cacheStep, hrd] at hlv
      cases hlv
    | some rn =>
      have hpost := cacheLevels_first hrd hlim _ sf hlv
      exact ⟨hpost.1, rn, rfl, hpost.2⟩

/-! ### Cache consistency: cached nodes agree with storage -/

/-- Every node held by the cache is exactly the node stored at its
position. `create_cache` only ever inserts a node it just read from the
storage, so this holds for every cache it builds. -/
def CacheAgrees (rd : Nat → Option NodeR) (c : List (Nat × NodeR)) : Prop :=
  ∀ p nd, lookupKV c p = some nd → rd p = some nd

theorem cacheStep_agrees {rd : Nat → Option NodeR} {limit : Nat}
    {s s2 : CacheSt} {flag : Bool}
    (hstep : cacheStep rd limit s = some (s2, flag))
    (hag : CacheAgrees rd s.cache) : CacheAgrees rd s2.cache := by
  match hq : s.queue with
  | [] => simp [cacheStep, hq] at hstep
  | p :: rest =>
    match hrd : rd p with
    | none => simp [cacheStep, hq, hrd] at hstep
    | some nd =>
      simp only [cacheStep, hq, hrd, Option.some.injEq, Prod.mk.injEq] at hstep
      obtain ⟨hs2, _⟩ := hstep
      have hcache2 : s2.cache = insertKV s.cache p nd := by
        rw [← hs2]
      intro q nq hlq
      rw [hcache2] at hlq
      by_cases hqp : q = p
      · subst hqp
        rw [lookupKV_insert_self] at hlq
        obtain rfl := Option.some.inj hlq
        exact hrd
      · rw [lookupKV_insert_ne s.cache p q nd hqp] at hlq
        exact hag q nq hlq

theorem cacheInner_agrees {rd : Nat → Option NodeR} {limit : Nat} :
    ∀ (cnt : Nat) (s s2 : CacheSt) (flag : Bool),
      cacheInner rd limit cnt s = some (s2, flag) →
      CacheAgrees rd s.cache → CacheAgrees rd s2.cache := by
  intro cnt
  induction cnt with
  | zero =>
    intro s s2 flag hrun hag
    simp only [cacheInner, Option.some.injEq, Prod.mk.injEq] at hrun
    obtain ⟨rfl, rfl⟩ := hrun
    exact hag
  | succ c ih =>
    intro s s2 flag hrun hag
    simp only [cacheInner] at hrun
    match hstep : cacheStep rd limit s with
    | none => rw [hstep] at hrun; cases hrun
    | some (s3, true) =>
      rw [hstep] at hrun
      simp only [Option.some.injEq, Prod.mk.injEq] at hrun
      obtain ⟨rfl, rfl⟩ := hrun
      exact cacheStep_agrees hstep hag
    | some (s3, false) =>
      rw [hstep] at hrun
      simp only at hrun
      exact ih s3 s2 flag hrun (cacheStep_agrees hstep hag)

theorem cacheLevels_agrees {rd : Nat → Option NodeR} {limit : Nat} :
    ∀ (cs : List Nat) (s sf : CacheSt),
      cacheLevels rd limit cs s = some sf →
      CacheAgrees rd s.cache → CacheAgrees rd sf.cache := by
  intro cs
  induction cs with
  | nil =>
    intro s sf hrun hag
    simp only [cacheLevels, Option.some.injEq] at hrun
    obtain rfl := hrun
    exact hag
  | cons c cs ih =>
    intro s sf hrun hag
    simp only [cacheLevels] at hrun
    match hstep : cacheInner rd limit c s with
    | none => rw [hstep] at hrun; cases hrun
    | some (s2, true) =>
      rw [hstep] at hrun
      simp only [Option.some.injEq] at hrun
      obtain rfl := hrun
      exact cacheInner_agrees c s s2 true hstep hag
    | some (s2, false) =>
      rw [hstep] at hrun
      simp only at hrun
      exact ih s2 sf hrun (cacheInner_agrees c s s2 false hstep hag)

theorem createCache_agrees {rd : Nat → Option NodeR} {height root limit : Nat}
    {c : List (Nat × NodeR)}
    (hsucc : createCache rd height root limit = some c) : CacheAgrees rd c := by
  simp only [createCache] at hsucc
  match hlv : cacheLevels rd limit ((List.range (height + 1)).map (fun l => 2 ^ l))
      ⟨[], [root]⟩ with
  | none => rw [hlv] at hsucc; cases hsucc
  | some sf =>
    rw [hlv] at hsucc
    simp only [Option.some.injEq] at hsucc
    obtain rfl := hsucc
    refine cacheLevels_agrees _ _ sf hlv ?_
    intro p nd h
    simp [lookupKV] at h

/-- With a cache that agrees with the storage, `load` is exactly the
storage read. -/
theorem load_eq_rd {rd : Nat → Option NodeR} {c : List (Nat × NodeR)}
    (hag : CacheAgrees rd c) (p : Nat) : load c rd p = rd p := by
  unfold load
  match hl : lookupKV c p with
  | some nd => exact (hag p nd hl).symm
  | none => rfl

theorem getRec_cache_eq {rd : Nat → Option NodeR} {c1 c2 : List (Nat × NodeR)}
    (h12 : ∀ p, load c1 rd p = load c2 rd p) (height k : Nat) :
    ∀ (fuel : Nat) (nd : NodeR),
      getRec c1 rd height k fuel nd = getRec c2 rd height k fuel nd := by
  intro fuel
  induction fuel with
  | zero => intro nd; rfl
  | succ f ih =>
    intro nd
    simp only [getRec]
    match nd.kind with
    | NodeKindR.leafK data => rfl
    | NodeKindR.branchK l r =>
      simp only
      rw [h12]
      match load c2 rd (if move_left height nd.index k then l else r) with
      | none => rfl
      | some nd2 => exact ih nd2

/-- C5. The node cache never changes the answer of `get`: for the same
stored tree, the same root and height, and any two cache budgets whose
prefill succeeded, `get(k)` returns identical results, because every
cached node agrees with the node stored at its position and `load`
therefore coincides with a plain storage read. -/
theorem c5_get_independent_of_cache_limit
    (rd : Nat → Option NodeR) (height root k limit1 limit2 : Nat)
    (c1 c2 : List (Nat × NodeR))
    (_hl1 : 1 ≤ limit1) (_hl2 : 1 ≤ limit2)
    (h1 : createCache rd height root limit1 = some c1)
    (h2 : createCache rd height root limit2 = some c2) :
    getT c1 rd height root k = getT c2 rd height root k := by
  have hag1 := createCache_agrees h1
  have hag2 := createCache_agrees h2
  have hload : ∀ p, load c1 rd p = load c2 rd p := by
    intro p
    rw [load_eq_rd hag1, load_eq_rd hag2]
  unfold getT
  by_cases hk : k = 0 ∨ 2 ^ (height - 1) < k
  · simp [hk]
  · simp only [if_neg hk]
    rw [hload]
    match load c2 rd root with
    | none => rfl
    | some nd => exact getRec_cache_eq hload height k height nd

/-- Concrete one-leaf tree used by the witnesses: a single leaf node
stored at position 2 (position 1 holds the metadata record in the real
layout). -/
def ndW : NodeR :=
  { position := 2, index := 1, hash := HashB.leafH [1], kind := NodeKindR.leafK [1] }

/-- Reader of the one-leaf witness storage. -/
def rdW (p : Nat) : Option NodeR := lookupKV [(2, ndW)] p

/-- C5 witness: on the one-leaf tree, `get(1)` computed through the
cache built with limit 1 equals `get(1)` through the cache built with
limit 2. -/
theorem c5_get_independent_of_cache_limit_witness :
    getT [(2, ndW)] rdW 1 2 1 = getT [(2, ndW)] rdW 1 2 1 :=
  c5_get_independent_of_cache_limit rdW 1 2 1 1 2 [(2, ndW)] [(2, ndW)]
    (by decide) (by decide) (by decide) (by decide)

/-- C10 witness: the cache built over the one-leaf tree with limit 1
has at most one entry and contains the root node. -/
theorem c10_cache_bounded_and_contains_root_witness :
    ([((2 : Nat), ndW)] : List (Nat × NodeR)).length ≤ 1 ∧
    ∃ rn, rdW 2 = some rn ∧ lookupKV [((2 : Nat), ndW)] 2 = some rn :=
  c10_cache_bounded_and_contains_root rdW 1 2 1 [(2, ndW)] (by decide) (by decide)

/-! ### Well-formed stored trees and the out-of-range behaviour of get -/

/-- A well-formed perfect subtree stored at position `p` with `m`
remaining descent levels: a leaf, or a branch whose two children are
well-formed at depth `m`. `BinaryHashTree::create` lays out exactly
such a tree with `m = h - 1` below the root. -/
inductive WfAt (rd : Nat → Option NodeR) : Nat → Nat → Prop
  | leafW {p : Nat} {nd : NodeR} {d : List Nat} :
      rd p = some nd → nd.kind = NodeKindR.leafK d → WfAt rd p 0
  | branchW {p : Nat} {nd : NodeR} {l r m : Nat} :
      rd p = some nd → nd.kind = NodeKindR.branchK l r →
      WfAt rd l m → WfAt rd r m → WfAt rd p (m + 1)

theorem WfAt_node {rd : Nat → Option NodeR} {p m : Nat} (h : WfAt rd p m) :
    ∃ nd, rd p = some nd := by
  cases h with
  | leafW hrd _ => exact ⟨_, hrd⟩
  | branchW hrd _ _ _ => exact ⟨_, hrd⟩

/-- On a well-formed subtree the descent loop of `get` always reaches a
leaf and returns its data, for any query index and any agreeing
cache. -/
theorem getRec_wf {rd : Nat → Option NodeR} {c : List (Nat × NodeR)}
    (hag : CacheAgrees rd c) (height k : Nat) :
    ∀ (m p : Nat), WfAt rd p m →
      ∀ (nd : NodeR), rd p = some nd →
      ∀ (fuel : Nat), m < fuel →
      ∃ d, getRec c rd height k fuel nd = some (some d) := by
  intro m
  induction m with
  | zero =>
    intro p hwf nd hnd fuel hfuel
    match fuel, hfuel with
    | f + 1, _ =>
      cases hwf with
      | leafW hrd hkind =>
        rename_i nd0 d0
        rw [hrd] at hnd
        obtain rfl := Option.some.inj hnd
        exact ⟨d0, by simp only [getRec, hkind]⟩
  | succ mm ih =>
    intro p hwf nd hnd fuel hfuel
    match fuel, hfuel with
    | f + 1, hf =>
      cases hwf with
      | branchW hrd hkind hl hr =>
        rename_i nd0 l0 r0
        rw [hrd] at hnd
        obtain rfl := Option.some.inj hnd
        have hm : mm < f := by omega
        cases hml : move_left height nd0.index k with
        | true =>
          obtain ⟨ndl, hndl⟩ := WfAt_node hl
          obtain ⟨d, hd⟩ := ih l0 hl ndl hndl f hm
          refine ⟨d, ?_⟩
          simp only [getRec, hkind, hml, if_true, load_eq_rd hag, hndl]
          exact hd
        | false =>
          obtain ⟨ndr, hndr⟩ := WfAt_node hr
          obtain ⟨d, hd⟩ := ih r0 hr ndr hndr f hm
          refine ⟨d, ?_⟩
          simp only [getRec, hkind, hml, Bool.false_eq_true, if_false, load_eq_rd hag, hndr]
          exact hd


/-- C4 amended, for the 1-based tree of rust/src/hashtree/binary.rs:
over a well-formed stored tree of height `h ≥ 1` (and any cache that
agrees with the storage, which holds for every cache `create_cache`
builds), `get(k)` returns `Ok(None)` exactly when `k = 0` or
`k > 2^(h-1)`, and it never returns an error. -/
theorem c4_get_none_iff_out_of_range
    (rd : Nat → Option NodeR) (c : List (Nat × NodeR)) (height root k : Nat)
    (hh : 1 ≤ height) (hwf : WfAt rd root (height - 1))
    (hag : CacheAgrees rd c) :
    (getT c rd height root k = some none ↔ (k = 0 ∨ 2 ^ (height - 1) < k)) ∧
    getT c rd height root k ≠ none := by
  by_cases hk : k = 0 ∨ 2 ^ (height - 1) < k
  · constructor
    · simp [getT, hk]
    · simp [getT, hk]
  · obtain ⟨rootnd, hrootnd⟩ := WfAt_node hwf
    have hrange : height - 1 < height := by omega
    obtain ⟨d, hd⟩ := getRec_wf hag height k (height - 1) root hwf rootnd hrootnd height hrange
    have hgt : getT c rd height root k = some (some d) := by
      simp only [getT, if_neg hk, load_eq_rd hag, hrootnd]
      exact hd
    constructor
    · rw [hgt]
      constructor
      · intro h
        cases Option.some.inj h
      · intro h
        exact absurd h hk
    · rw [hgt]
      intro h
      cases h

/-- C4 witness: on the well-formed one-leaf tree, `get(3)` is
`Ok(None)` because 3 exceeds the single leaf, and `get` is error-free
there. -/
theorem c4_get_none_iff_out_of_range_witness :
    (getT [] rdW 1 2 3 = some none ↔ ((3 : Nat) = 0 ∨ 2 ^ (1 - 1) < 3)) ∧
    getT [] rdW 1 2 3 ≠ none :=
  c4_get_none_iff_out_of_range rdW [] 1 2 3 (by decide)
    (WfAt.leafW (d := [1]) rfl rfl)
    (fun p nd h => by simp [lookupKV] at h)

/-! ### The 0-based BinaryHashTree of src/src/hashtree/binary.rs

This older variant indexes leaves from 0: its `get(index)` answers
`None` only when `index >= self.size`, so `get(0)` on a nonempty tree
returns the first entry. Only the lookup path is needed here. -/

/-- Embedding of the old `NodeKind` (src/src/hashtree/binary.rs lines
13-17). -/
inductive NodeKindO
  | leafO : List Nat → NodeKindO
  | branchO : Nat → Nat → NodeKindO
deriving DecidableEq

/-- Embedding of the old `Node` (src/src/hashtree/binary.rs lines
20-26); the hash is irrelevant to `get` and omitted from the lookup
path, `range` is the inclusive id interval covered by the node. -/
structure NodeO where
  position : Nat
  range : Nat × Nat
  kind : NodeKindO
deriving DecidableEq

/-- Embedding of `Node::contains` (src/src/hashtree/binary.rs lines
54-56). -/
def containsO (nd : NodeO) (id : Nat) : Bool :=
  decide (nd.range.1 ≤ id) && decide (id ≤ nd.range.2)

/-- Embedding of the recursive `lookup` (src/src/hashtree/binary.rs
lines 237-251), with structural fuel for the recursion; `read_node`
failures are `none`. The write-through cache of `read_node` always
mirrors the file for a static tree, so reads are modelled directly. -/
def lookupO (rd : Nat → Option NodeO) : Nat → Nat → NodeO → Option NodeO
  | 0, _, _ => none
  | fuel + 1, id, nd =>
    match nd.kind with
    | NodeKindO.leafO _ => some nd
    | NodeKindO.branchO l r =>
      match rd l with
      | none => none
      | some ln =>
        if containsO ln id then lookupO rd fuel id ln
        else
          match rd r with
          | none => none
          | some rn => lookupO rd fuel id rn

/-- Embedding of the old `get` (src/src/hashtree/binary.rs lines
347-359): `None` when `index >= size`, otherwise look the id up from
the root. -/
def getO (rd : Nat → Option NodeO) (size : Nat) (rootPos : Option Nat)
    (index fuel : Nat) : Option (Option (List Nat)) :=
  if size ≤ index then some none
  else
    match rootPos with
    | none => some none
    | some p =>
      match rd p with
      | none => none
      | some root =>
        match lookupO rd fuel index root with
        | some nd =>
          match nd.kind with
          | NodeKindO.leafO data => some (some data)
          | _ => none
        | none => none

/-- C4 counterexample. The size-1 tree built by one `append(b"\x07")`
on the 0-based BinaryHashTree of src/src/hashtree/binary.rs: its single
leaf (id 0, range (0,0)) sits at byte position 16, after the 16-byte
metadata header, and is the root. `get(0)` returns `Some([7])`, not
`None`: the claim that `get(0)` always returns `Ok(None)` is false for
this hash tree. -/
theorem c4_counterexample :
    getO (fun p => lookupKV [(16, ⟨16, (0, 0), NodeKindO.leafO [7]⟩)] p) 1 (some 16) 0 2 =
      some (some [7]) ∧
    getO (fun p => lookupKV [(16, ⟨16, (0, 0), NodeKindO.leafO [7]⟩)] p) 1 (some 16) 0 2 ≠
      some none := by
  decide

/-! ### The divergence-prove protocol (rust/src/slate.rs lines 310-334)

The convergence loop itself is in the benchmark source
(`SlateCUT::prove`); the authentication paths and `AuthPath::prove`
that it drives live in the external slate crate and are modelled from
the spec below. Hash values are again a free algebra, which is exactly
the consequence of collision resistance: two nodes hash equal iff the
leaf payloads below them agree. -/

/-- Free hash algebra over leaf payloads (64-bit values, as the
benchmark appends `splitmix64(i).to_le_bytes()`). -/
inductive HashT
  | leafH : Nat → HashT
  | nodeH : HashT → HashT → HashT
deriving DecidableEq

/-- Modelled from the spec: the Merkle forest of a snapshot, as a
binary tree whose leaves carry 1-based entry indices. Interior nodes
are either full subtrees of the left-complete tree or the ephemeral
right-spine fold nodes of section 3 of the spec. -/
inductive MTree
  | leafT : Nat → MTree
  | nodeT : MTree → MTree → MTree
deriving DecidableEq

/-- Rightmost leaf index below a node; for a node `(i, j)` of the spec
this is exactly the first address component `i`. -/
def maxLeaf : MTree → Nat
  | MTree.leafT i => i
  | MTree.nodeT _ r => maxLeaf r

/-- Height of a node; for a full subtree this is the level `j` of the
spec, and for an ephemeral spine node covering `s` leaves it equals
`⌈log₂ s⌉`, the level the spec assigns it. Zero exactly on leaves. -/
def theight : MTree → Nat
  | MTree.leafT _ => 0
  | MTree.nodeT l r => 1 + max (theight l) (theight r)

/-- Node address `(i, j)` of the spec: rightmost covered leaf and
level. -/
def addrT (t : MTree) : Nat × Nat := (maxLeaf t, theight t)

/-- Modelled from the spec: the authenticated hash of a subtree for a
log with leaf payloads `V`. -/
def hashT (V : Nat → Nat) : MTree → HashT
  | MTree.leafT i => HashT.leafH (V i)
  | MTree.nodeT l r => HashT.nodeH (hashT V l) (hashT V r)

/-- Modelled from the spec (section 4.5): the sibling subtrees along
the root-to-leaf walk of the authentication path for leaf `k`, root
first. At each interior node the walk descends into the child whose
range covers `k` and records the other child. -/
def sibsT : MTree → Nat → List MTree
  | MTree.leafT _, _ => []
  | MTree.nodeT l r, k =>
    if k ≤ maxLeaf l then r :: sibsT l k else l :: sibsT r k

/-- Modelled from the spec: the divergent-address set of
`auth₂.prove(auth₁)` for two logs `A`, `B`, compared along the
authentication path of leaf `k` — every sibling whose hashes differ,
plus the leaf pair itself (the `AuthPath` carries the leaf hash, and
a differing leaf is the `(k, 0)` divergence the loop terminates on). -/
def divsT (A B : Nat → Nat) (t : MTree) (k : Nat) : List (Nat × Nat) :=
  ((sibsT t k).filter (fun s => decide (hashT A s ≠ hashT B s))).map addrT ++
    (if A k ≠ B k then [(k, 0)] else [])

/-- Modelled from the spec: `prove` compares the covering roots first
and answers `Identical` (`none`) when they agree, otherwise
`Divergent` with the address set. -/
def proveT (A B : Nat → Nat) (t : MTree) (k : Nat) : Option (List (Nat × Nat)) :=
  if hashT A t = hashT B t then none else some (divsT A B t k)

/-- Strict lexicographic order on `(i, j)` pairs: Rust's derived `Ord`
on tuples, which `divergents.iter().min()` uses in `SlateCUT::prove`. -/
def pairLtB (p q : Nat × Nat) : Bool :=
  decide (p.1 < q.1) || (decide (p.1 = q.1) && decide (p.2 < q.2))

/-- Embedding of `divergents.iter().min()` from `SlateCUT::prove`
(slate.rs line 323): the least element in the lexicographic tuple
order, `i` first and `j` second. -/
def minPair : List (Nat × Nat) → Option (Nat × Nat)
  | [] => none
  | p :: rest => some (rest.foldl (fun a b => if pairLtB b a then b else a) p)

/-- Selection the spec prescribes instead: smallest level `j` first,
then smallest `i`. Stated only to compare against `minPair`. -/
def specMinPair : List (Nat × Nat) → Option (Nat × Nat)
  | [] => none
  | p :: rest =>
    some (rest.foldl
      (fun a b =>
        if decide (b.2 < a.2) || (decide (b.2 = a.2) && decide (b.1 < a.1)) then b
        else a) p)

/-- Embedding of the divergence-convergence loop of `SlateCUT::prove`
(slate.rs lines 316-331), with structural fuel for the unbounded
`loop`: query both logs at `k` (initially `n`), stop with `none` on
`Identical`, take the minimum divergent address, return its `i` when
its level is 0, otherwise re-query both logs at that `i`. The outer
`none` means the fuel ran out or the `min().unwrap()` panicked on an
empty divergent set. -/
def proveLoopT (A B : Nat → Nat) (t : MTree) : Nat → Nat → Option (Option Nat)
  | 0, _ => none
  | fuel + 1, k =>
    match proveT A B t k with
    | none => some none
    | some divergents =>
      match minPair divergents with
      | none => none
      | some mp =>
        if mp.2 = 0 then some (some mp.1) else proveLoopT A B t fuel mp.1

/-- Perfect subtree with `2^h` consecutive leaves starting at `lo`. -/
def pt (lo : Nat) : Nat → MTree
  | 0 => MTree.leafT lo
  | h + 1 => MTree.nodeT (pt lo h) (pt (lo + 2 ^ h) h)

/-- Structural floor base-2 logarithm (first argument is fuel, any
bound of the second argument works). -/
def log2fuel : Nat → Nat → Nat
  | 0, _ => 0
  | f + 1, n => if n < 2 then 0 else log2fuel f (n / 2) + 1

/-- Floor base-2 logarithm used by the forest decomposition. -/
def nlog2 (n : Nat) : Nat := log2fuel n n

/-- Modelled from the spec (section 4.1, `forest_roots`): decompose `n`
by its set bits from most to least significant; each bit `b`
contributes a perfect subtree over the next `2^b` leaves. The first
argument is structural fuel; `n` itself suffices. -/
def forestGo : Nat → Nat → Nat → List MTree
  | 0, _, _ => []
  | f + 1, n, lo =>
    if n = 0 then []
    else pt lo (nlog2 n) :: forestGo f (n - 2 ^ nlog2 n) (lo + 2 ^ nlog2 n)

/-- Forest roots of a snapshot of size `n`, leftmost (highest) first. -/
def forestT (n lo : Nat) : List MTree := forestGo n n lo

/-- Modelled from the spec (section 3, snapshot root): right-spine fold
of the forest roots, combining each root with the fold of the roots to
its right. -/
def spineFold : List MTree → MTree
  | [] => MTree.leafT 0
  | [t] => t
  | t :: rest => MTree.nodeT t (spineFold rest)

/-- The Merkle tree of a snapshot of size `n` with 1-based leaves. -/
def snapT (n : Nat) : MTree := spineFold (forestT n 1)

/-! ### C1: which element the loop selects -/

/-- Non-strict lexicographic order on `(i, j)` with `i` major. -/
def pairLe (p q : Nat × Nat) : Prop :=
  p.1 < q.1 ∨ (p.1 = q.1 ∧ p.2 ≤ q.2)

theorem pairLtB_iff {p q : Nat × Nat} :
    pairLtB p q = true ↔ (p.1 < q.1 ∨ (p.1 = q.1 ∧ p.2 < q.2)) := by
  simp [pairLtB]

theorem pairLe_refl (p : Nat × Nat) : pairLe p p := Or.inr ⟨rfl, Nat.le_refl _⟩

theorem pairLe_trans {p q r : Nat × Nat} (h1 : pairLe p q) (h2 : pairLe q r) :
    pairLe p r := by
  unfold pairLe at h1 h2 ⊢
  omega

theorem pairLe_of_pairLtB {p q : Nat × Nat} (h : pairLtB p q = true) : pairLe p q := by
  rw [pairLtB_iff] at h
  unfold pairLe
  omega

theorem pairLe_of_not_pairLtB {p q : Nat × Nat} (h : ¬ pairLtB p q = true) :
    pairLe q p := by
  rw [pairLtB_iff] at h
  unfold pairLe
  omega

theorem foldl_min_mem :
    ∀ (l : List (Nat × Nat)) (a : Nat × Nat),
      l.foldl (fun x b => if pairLtB b x then b else x) a = a ∨
      l.foldl (fun x b => if pairLtB b x then b else x) a ∈ l := by
  intro l
  induction l with
  | nil => intro a; exact Or.inl rfl
  | cons b rest ih =>
    intro a
    simp only [List.foldl_cons]
    rcases ih (if pairLtB b a then b else a) with h | h
    · rw [h]
      by_cases hb : pairLtB b a
      · simp only [if_pos hb]
        exact Or.inr (List.mem_cons_self b rest)
      · simp only [if_neg hb]
        exact Or.inl trivial
    · exact Or.inr (List.mem_cons_of_mem b h)

theorem foldl_min_le :
    ∀ (l : List (Nat × Nat)) (a : Nat × Nat),
      pairLe (l.foldl (fun x b => if pairLtB b x then b else x) a) a ∧
      ∀ q ∈ l, pairLe (l.foldl (fun x b => if pairLtB b x then b else x) a) q := by
  intro l
  induction l with
  | nil =>
    intro a
    exact ⟨pairLe_refl a, by intro q hq; cases hq⟩
  | cons b rest ih =>
    intro a
    simp only [List.foldl_cons]
    obtain ⟨h1, h2⟩ := ih (if pairLtB b a then b else a)
    have hstep_a : pairLe (if pairLtB b a then b else a) a := by
      by_cases hb : pairLtB b a
      · simp only [if_pos hb]
        exact pairLe_of_pairLtB hb
      · simp only [if_neg hb]
        exact pairLe_refl a
    have hstep_b : pairLe (if pairLtB b a then b else a) b := by
      by_cases hb : pairLtB b a
      · simp only [if_pos hb]
        exact pairLe_refl b
      · simp only [if_neg hb]
        exact pairLe_of_not_pairLtB hb
    refine ⟨pairLe_trans h1 hstep_a, ?_⟩
    intro q hq
    rcases List.mem_cons.mp hq with rfl | hq
    · exact pairLe_trans h1 hstep_b
    · exact h2 q hq

/-- C1 counterexample. For two logs of size 4 differing at leaves 1 and
3 — reachable in the convergence loop: the first round queries `k = 4`
 — `prove` reports the divergent set `[(2,1), (3,0)]`. The loop's
`divergents.iter().min()` selects `(2,1)`, the tuple-lexicographic
minimum with smallest index `i` first, whereas the element with the
smallest level `j` (then smallest `i`) is `(3,0)`: the claim is false
at this input. -/
theorem c1_counterexample :
    divsT (fun i => i) (fun i => if i = 1 ∨ i = 3 then 99 else i) (snapT 4) 4 =
      [(2, 1), (3, 0)] ∧
    minPair [(2, 1), (3, 0)] = some (2, 1) ∧
    specMinPair [(2, 1), (3, 0)] = some (3, 0) ∧
    some ((2, 1) : Nat × Nat) ≠ some ((3, 0) : Nat × Nat) := by
  decide

/-- C1 amended: in every iteration of the convergence loop of
`SlateCUT::prove`, the element selected from a non-empty divergent set
(and, when its level is 0, returned as the differing leaf index) is the
lexicographic minimum of the `(i, j)` pairs with the index `i` major —
smallest `i` first and, among equal `i`, smallest level `j` — not the
smallest-level element. -/
theorem c1_min_is_lexicographic_by_index
    (D : List (Nat × Nat)) (p : Nat × Nat) (h : minPair D = some p) :
    p ∈ D ∧ ∀ q ∈ D, pairLe p q := by
  match D with
  | [] => cases h
  | a :: rest =>
    simp only [minPair, Option.some.injEq] at h
    obtain rfl := h.symm
    constructor
    · rcases foldl_min_mem rest a with he | he
      · rw [he]
        exact List.mem_cons_self a rest
      · exact List.mem_cons_of_mem a he
    · intro q hq
      obtain ⟨h1, h2⟩ := foldl_min_le rest a
      rcases List.mem_cons.mp hq with rfl | hq
      · exact h1
      · exact h2 q hq

/-- C1 witness: applying the characterization to the reachable
divergent set `[(2,1), (3,0)]`, whose selected element is `(2,1)`. -/
theorem c1_min_is_lexicographic_by_index_witness :
    ((2, 1) : Nat × Nat) ∈ [((2, 1) : Nat × Nat), (3, 0)] ∧
    ∀ q ∈ [((2, 1) : Nat × Nat), (3, 0)], pairLe (2, 1) q :=
  c1_min_is_lexicographic_by_index [(2, 1), (3, 0)] (2, 1) (by decide)

/-! ### C2: convergence of the prove loop

Structural facts about snapshot trees. `Iv t lo hi` says the leaves of
`t` are exactly `lo..hi` in order, split contiguously at every interior
node — the shape every snapshot tree has. -/

inductive Iv : MTree → Nat → Nat → Prop
  | leafI (i : Nat) : Iv (MTree.leafT i) i i
  | nodeI {l r : MTree} {lo mid hi : Nat} :
      Iv l lo mid → Iv r (mid + 1) hi → Iv (MTree.nodeT l r) lo hi

theorem Iv_le {t : MTree} {lo hi : Nat} (h : Iv t lo hi) : lo ≤ hi := by
  induction h with
  | leafI i => exact Nat.le_refl i
  | nodeI hl hr ihl ihr => omega

theorem maxLeaf_eq {t : MTree} {lo hi : Nat} (h : Iv t lo hi) : maxLeaf t = hi := by
  induction h with
  | leafI i => rfl
  | nodeI hl hr ihl ihr => simpa [maxLeaf] using ihr

theorem Iv_unique {t : MTree} :
    ∀ {lo hi lo2 hi2 : Nat}, Iv t lo hi → Iv t lo2 hi2 → lo = lo2 ∧ hi = hi2 := by
  induction t with
  | leafT i =>
    intro lo hi lo2 hi2 h1 h2
    cases h1
    cases h2
    exact ⟨rfl, rfl⟩
  | nodeT l r ihl ihr =>
    intro lo hi lo2 hi2 h1 h2
    cases h1 with
    | nodeI hl1 hr1 =>
      cases h2 with
      | nodeI hl2 hr2 =>
        obtain ⟨e1, e2⟩ := ihl hl1 hl2
        subst e1
        subst e2
        obtain ⟨e3, e4⟩ := ihr hr1 hr2
        exact ⟨rfl, e4⟩

theorem theight_eq_zero {t : MTree} (h : theight t = 0) : ∃ m, t = MTree.leafT m := by
  cases t with
  | leafT i => exact ⟨i, rfl⟩
  | nodeT l r => simp [theight] at h

/-- Subtree relation on snapshot trees. -/
inductive SubT : MTree → MTree → Prop
  | reflS (t : MTree) : SubT t t
  | leftS {s l r : MTree} : SubT s l → SubT s (MTree.nodeT l r)
  | rightS {s l r : MTree} : SubT s r → SubT s (MTree.nodeT l r)

theorem SubT_trans {u s t : MTree} (h1 : SubT u s) (h2 : SubT s t) : SubT u t := by
  induction h2 with
  | reflS => exact h1
  | leftS hsub ih => exact SubT.leftS ih
  | rightS hsub ih => exact SubT.rightS ih

theorem SubT_bounds {s t : MTree} (hsub : SubT s t) :
    ∀ {lo hi lo' hi' : Nat}, Iv t lo hi → Iv s lo' hi' → lo ≤ lo' ∧ hi' ≤ hi := by
  induction hsub with
  | reflS =>
    intro lo hi lo' hi' h1 h2
    obtain ⟨e1, e2⟩ := Iv_unique h1 h2
    omega
  | leftS hsub ih =>
    intro lo hi lo' hi' h1 h2
    cases h1 with
    | nodeI hl hr =>
      have hbl := ih hl h2
      have := Iv_le hr
      omega
  | rightS hsub ih =>
    intro lo hi lo' hi' h1 h2
    cases h1 with
    | nodeI hl hr =>
      have hbr := ih hr h2
      have := Iv_le hl
      omega

/-- Collision resistance in the free hash algebra: for two logs that
differ exactly at leaf `kstar` within `1..n`, a subtree's hashes differ
iff its leaf range contains `kstar`. -/
theorem hashT_ne_iff {A B : Nat → Nat} {n kstar : Nat}
    (hdiff : ∀ i, 1 ≤ i → i ≤ n → (A i ≠ B i ↔ i = kstar)) :
    ∀ {t : MTree} {lo hi : Nat}, Iv t lo hi → 1 ≤ lo → hi ≤ n →
      (hashT A t ≠ hashT B t ↔ (lo ≤ kstar ∧ kstar ≤ hi)) := by
  intro t lo hi hiv
  induction hiv with
  | leafI i =>
    intro h1 hn
    have hd := hdiff i h1 hn
    constructor
    · intro hne
      have hab : A i ≠ B i := by
        intro he
        exact hne (by simp only [hashT, he])
      have := hd.mp hab
      omega
    · intro hk
      have hik : i = kstar := by omega
      have hne := hd.mpr hik
      intro he
      simp only [hashT, HashT.leafH.injEq] at he
      exact hne he
  | nodeI hl hr ihl ihr =>
    intro h1 hn
    rename_i l r lo2 mid hi2
    have hlm := Iv_le hl
    have hrm := Iv_le hr
    have ihl2 := ihl h1 (by omega)
    have ihr2 := ihr (by omega) hn
    constructor
    · intro hne
      have hor : hashT A l ≠ hashT B l ∨ hashT A r ≠ hashT B r := by
        by_contra hc
        push_neg at hc
        exact hne (by simp only [hashT, hc.1, hc.2])
      rcases hor with h | h
      · have := ihl2.mp h
        omega
      · have := ihr2.mp h
        omega
    · intro hk
      by_cases hkm : kstar ≤ mid
      · have hne := ihl2.mpr ⟨by omega, hkm⟩
        intro he
        simp only [hashT, HashT.nodeH.injEq] at he
        exact hne he.1
      · have hne := ihr2.mpr ⟨by omega, by omega⟩
        intro he
        simp only [hashT, HashT.nodeH.injEq] at he
        exact hne he.2

/-- Equal logs over a subtree's range hash equal. -/
theorem hashT_congr {A B : Nat → Nat} :
    ∀ {t : MTree} {lo hi : Nat}, Iv t lo hi →
      (∀ i, lo ≤ i → i ≤ hi → A i = B i) → hashT A t = hashT B t := by
  intro t lo hi hiv
  induction hiv with
  | leafI i =>
    intro hab
    simp only [hashT, hab i (Nat.le_refl i) (Nat.le_refl i)]
  | nodeI hl hr ihl ihr =>
    intro hab
    have hlm := Iv_le hl
    have hrm := Iv_le hr
    rename_i l r lo mid hi
    simp only [hashT]
    rw [ihl (fun i hi1 hi2 => hab i hi1 (by omega)),
        ihr (fun i hi1 hi2 => hab i (by omega) hi2)]

theorem hashT_eq_of_not_mem {A B : Nat → Nat} {n kstar : Nat}
    (hdiff : ∀ i, 1 ≤ i → i ≤ n → (A i ≠ B i ↔ i = kstar))
    {u : MTree} {lo2 hi2 : Nat} (hIv : Iv u lo2 hi2) (h1 : 1 ≤ lo2) (hn : hi2 ≤ n)
    (hout : kstar < lo2 ∨ hi2 < kstar) : hashT A u = hashT B u := by
  by_contra hne
  have := (hashT_ne_iff hdiff hIv h1 hn).mp hne
  omega

theorem filter_eq_nil_of {α : Type} (p : α → Bool) :
    ∀ (l : List α), (∀ a ∈ l, p a = false) → l.filter p = [] := by
  intro l
  induction l with
  | nil => intro _; rfl
  | cons a rest ih =>
    intro h
    rw [List.filter_cons, h a (List.mem_cons_self a rest)]
    simp only [Bool.false_eq_true, if_false]
    exact ih (fun b hb => h b (List.mem_cons_of_mem a hb))

/-- Every sibling along the walk to leaf `k` is a contiguous subrange
of the tree that excludes `k`. -/
theorem sibs_within :
    ∀ {t : MTree} {lo hi : Nat}, Iv t lo hi → ∀ {k : Nat}, lo ≤ k → k ≤ hi →
      ∀ {u : MTree}, u ∈ sibsT t k →
      ∃ lo' hi', Iv u lo' hi' ∧ lo ≤ lo' ∧ hi' ≤ hi ∧ (hi' < k ∨ k < lo') := by
  intro t lo hi hiv
  induction hiv with
  | leafI i =>
    intro k _ _ u hu
    simp [sibsT] at hu
  | nodeI hl hr ihl ihr =>
    intro k hk1 hk2 u hu
    rename_i l r lo2 mid hi2
    have hml : maxLeaf l = mid := maxLeaf_eq hl
    have hlm := Iv_le hl
    have hrm := Iv_le hr
    by_cases hkm : k ≤ mid
    · rw [sibsT, hml, if_pos hkm] at hu
      rcases List.mem_cons.mp hu with rfl | hu
      · exact ⟨mid + 1, hi2, hr, by omega, by omega, by omega⟩
      · obtain ⟨lo', hi', hIv', hb1, hb2, hb3⟩ := ihl hk1 hkm hu
        exact ⟨lo', hi', hIv', by omega, by omega, hb3⟩
    · rw [sibsT, hml, if_neg hkm] at hu
      rcases List.mem_cons.mp hu with rfl | hu
      · exact ⟨lo2, mid, hl, by omega, by omega, by omega⟩
      · obtain ⟨lo', hi', hIv', hb1, hb2, hb3⟩ := ihr (by omega) hk2 hu
        exact ⟨lo', hi', hIv', by omega, by omega, hb3⟩

/-- Walking to a leaf of a subtree `s` first walks to `s`: the sibling
list splits into the siblings above `s` — contiguous ranges disjoint
from the range of `s` — followed by the siblings inside `s`. -/
theorem sibs_decomp {s t : MTree} (hsub : SubT s t) :
    ∀ {lo hi lo' hi' k : Nat}, Iv t lo hi → Iv s lo' hi' → lo' ≤ k → k ≤ hi' →
      ∃ pre, sibsT t k = pre ++ sibsT s k ∧
        ∀ u ∈ pre, ∃ lo2 hi2, Iv u lo2 hi2 ∧ lo ≤ lo2 ∧ hi2 ≤ hi ∧
          (hi2 < lo' ∨ hi' < lo2) := by
  induction hsub with
  | reflS =>
    intro lo hi lo' hi' k h1 h2 _ _
    refine ⟨[], by simp, ?_⟩
    intro u hu
    cases hu
  | leftS hsub ih =>
    intro lo hi lo' hi' k h1 h2 hk1 hk2
    cases h1 with
    | nodeI hl hr =>
      rename_i l r mid
      have hb := SubT_bounds hsub hl h2
      have hml : maxLeaf l = mid := maxLeaf_eq hl
      have hrm := Iv_le hr
      have hkm : k ≤ mid := by omega
      obtain ⟨pre, hpre, hprop⟩ := ih hl h2 hk1 hk2
      refine ⟨r :: pre, ?_, ?_⟩
      · rw [sibsT, hml, if_pos hkm, hpre]
        rfl
      · intro u hu
        rcases List.mem_cons.mp hu with rfl | hu
        · exact ⟨mid + 1, hi, hr, by omega, by omega, by omega⟩
        · obtain ⟨lo2, hi2, hIv2, hc1, hc2, hc3⟩ := hprop u hu
          have := Iv_le hl
          exact ⟨lo2, hi2, hIv2, by omega, by omega, hc3⟩
  | rightS hsub ih =>
    intro lo hi lo' hi' k h1 h2 hk1 hk2
    cases h1 with
    | nodeI hl hr =>
      rename_i l r mid
      have hb := SubT_bounds hsub hr h2
      have hml : maxLeaf l = mid := maxLeaf_eq hl
      have hlm := Iv_le hl
      have hkm : ¬ k ≤ mid := by omega
      obtain ⟨pre, hpre, hprop⟩ := ih hr h2 hk1 hk2
      refine ⟨l :: pre, ?_, ?_⟩
      · rw [sibsT, hml, if_neg hkm, hpre]
        rfl
      · intro u hu
        rcases List.mem_cons.mp hu with rfl | hu
        · exact ⟨lo, mid, hl, by omega, by omega, by omega⟩
        · obtain ⟨lo2, hi2, hIv2, hc1, hc2, hc3⟩ := hprop u hu
          have := Iv_le hr
          exact ⟨lo2, hi2, hIv2, by omega, by omega, hc3⟩

/-- When the query index is the differing leaf itself, no sibling hash
differs: every sibling range excludes `k = kstar`. -/
theorem filter_sibs_nil_self {A B : Nat → Nat} {n kstar : Nat}
    (hdiff : ∀ i, 1 ≤ i → i ≤ n → (A i ≠ B i ↔ i = kstar))
    {t : MTree} {lo hi k : Nat} (hIv : Iv t lo hi) (h1 : 1 ≤ lo) (hn : hi ≤ n)
    (hk1 : lo ≤ k) (hk2 : k ≤ hi) (hkk : k = kstar) :
    (sibsT t k).filter (fun s => decide (hashT A s ≠ hashT B s)) = [] := by
  refine filter_eq_nil_of _ _ ?_
  intro u hu
  obtain ⟨lo', hi', hIv', hb1, hb2, hb3⟩ := sibs_within hIv hk1 hk2 hu
  have heq := hashT_eq_of_not_mem hdiff hIv' (by omega) (by omega) (by omega)
  exact decide_eq_false (by simpa using heq)

/-- When the query index differs from the differing leaf, exactly one
sibling hash differs: the one whose range contains `kstar`. That
sibling is a proper subtree, strictly lower than the tree walked. -/
theorem filter_sibs_singleton {A B : Nat → Nat} {n kstar : Nat}
    (hdiff : ∀ i, 1 ≤ i → i ≤ n → (A i ≠ B i ↔ i = kstar)) :
    ∀ {t : MTree} {lo hi : Nat} (k : Nat), Iv t lo hi → 1 ≤ lo → hi ≤ n →
      lo ≤ k → k ≤ hi → lo ≤ kstar → kstar ≤ hi → k ≠ kstar →
      ∃ u lo' hi',
        (sibsT t k).filter (fun s => decide (hashT A s ≠ hashT B s)) = [u] ∧
        SubT u t ∧ Iv u lo' hi' ∧ lo ≤ lo' ∧ hi' ≤ hi ∧
        lo' ≤ kstar ∧ kstar ≤ hi' ∧ (hi' < k ∨ k < lo') ∧ theight u < theight t := by
  intro t lo hi k hiv
  induction hiv with
  | leafI i =>
    intro h1 hn hk1 hk2 hs1 hs2 hne
    omega
  | nodeI hl hr ihl ihr =>
    intro h1 hn hk1 hk2 hs1 hs2 hne
    rename_i l r lo2 mid hi2
    have hml : maxLeaf l = mid := maxLeaf_eq hl
    have hlm := Iv_le hl
    have hrm := Iv_le hr
    have hmaxl : theight l ≤ max (theight l) (theight r) := Nat.le_max_left _ _
    have hmaxr : theight r ≤ max (theight l) (theight r) := Nat.le_max_right _ _
    by_cases hkm : k ≤ mid
    · rw [sibsT, hml, if_pos hkm]
      rw [List.filter_cons]
      by_cases hsm : kstar ≤ mid
      · have hreq : hashT A r = hashT B r :=
          hashT_eq_of_not_mem hdiff hr (by omega) hn (by omega)
        rw [decide_eq_false (by simpa using hreq)]
        simp only [Bool.false_eq_true, if_false]
        obtain ⟨u, lo', hi', hfil, hsub, hIv', hb1, hb2, hc1, hc2, hc3, hht⟩ :=
          ihl h1 (by omega) hk1 hkm hs1 hsm hne
        refine ⟨u, lo', hi', hfil, SubT.leftS hsub, hIv', by omega, by omega,
          hc1, hc2, hc3, ?_⟩
        simp only [theight]
        omega
      · have hrne : hashT A r ≠ hashT B r :=
          (hashT_ne_iff hdiff hr (by omega) hn).mpr ⟨by omega, by omega⟩
        rw [decide_eq_true hrne]
        have hnil : (sibsT l k).filter
            (fun s => decide (hashT A s ≠ hashT B s)) = [] := by
          refine filter_eq_nil_of _ _ ?_
          intro u hu
          obtain ⟨lo', hi', hIv', hb1, hb2, hb3⟩ := sibs_within hl hk1 hkm hu
          have heq := hashT_eq_of_not_mem hdiff hIv' (by omega) (by omega) (by omega)
          exact decide_eq_false (by simpa using heq)
        rw [hnil]
        refine ⟨r, mid + 1, hi2, by simp, SubT.rightS (SubT.reflS r), hr,
          by omega, by omega, by omega, by omega, by omega, ?_⟩
        simp only [theight]
        omega
    · rw [sibsT, hml, if_neg hkm]
      rw [List.filter_cons]
      by_cases hsm : kstar ≤ mid
      · have hlne : hashT A l ≠ hashT B l :=
          (hashT_ne_iff hdiff hl h1 (by omega)).mpr ⟨by omega, by omega⟩
        rw [decide_eq_true hlne]
        have hnil : (sibsT r k).filter
            (fun s => decide (hashT A s ≠ hashT B s)) = [] := by
          refine filter_eq_nil_of _ _ ?_
          intro u hu
          obtain ⟨lo', hi', hIv', hb1, hb2, hb3⟩ := sibs_within hr (by omega) hk2 hu
          have heq := hashT_eq_of_not_mem hdiff hIv' (by omega) (by omega) (by omega)
          exact decide_eq_false (by simpa using heq)
        rw [hnil]
        refine ⟨l, lo2, mid, by simp, SubT.leftS (SubT.reflS l), hl,
          by omega, by omega, by omega, by omega, by omega, ?_⟩
        simp only [theight]
        omega
      · have hleq : hashT A l = hashT B l :=
          hashT_eq_of_not_mem hdiff hl h1 (by omega) (by omega)
        rw [decide_eq_false (by simpa using hleq)]
        simp only [Bool.false_eq_true, if_false]
        obtain ⟨u, lo', hi', hfil, hsub, hIv', hb1, hb2, hc1, hc2, hc3, hht⟩ :=
          ihr (by omega) hn (by omega) hk2 (by omega) hs2 hne
        refine ⟨u, lo', hi', hfil, SubT.rightS hsub, hIv', by omega, by omega,
          hc1, hc2, hc3, ?_⟩
        simp only [theight]
        omega

/-- One round of the convergence loop, seen from the divergent subtree
`s` whose rightmost leaf is being queried: if the query hits `kstar`
the divergent set is exactly `[(kstar, 0)]`; otherwise it is the single
sibling containing `kstar`, a strictly lower subtree. -/
theorem divs_step {A B : Nat → Nat} {n kstar : Nat}
    (hdiff : ∀ i, 1 ≤ i → i ≤ n → (A i ≠ B i ↔ i = kstar))
    {t0 s : MTree} {lo' hi' : Nat} (hIv0 : Iv t0 1 n)
    (hsub : SubT s t0) (hIvs : Iv s lo' hi')
    (hks1 : lo' ≤ kstar) (hks2 : kstar ≤ hi') :
    (hi' = kstar → divsT A B t0 hi' = [(kstar, 0)]) ∧
    (hi' ≠ kstar →
      ∃ u lo2 hi2, divsT A B t0 hi' = [(maxLeaf u, theight u)] ∧
        SubT u t0 ∧ Iv u lo2 hi2 ∧ lo2 ≤ kstar ∧ kstar ≤ hi2 ∧
        maxLeaf u = hi2 ∧ theight u < theight s) := by
  have hb := SubT_bounds hsub hIv0 hIvs
  have hle := Iv_le hIvs
  obtain ⟨pre, hpre, hprop⟩ := sibs_decomp hsub hIv0 hIvs hle (Nat.le_refl hi')
  have hprenil : pre.filter (fun s => decide (hashT A s ≠ hashT B s)) = [] := by
    refine filter_eq_nil_of _ _ ?_
    intro u hu
    obtain ⟨lo2, hi2, hIv2, hc1, hc2, hc3⟩ := hprop u hu
    have heq := hashT_eq_of_not_mem hdiff hIv2 hc1 hc2 (by omega)
    exact decide_eq_false (by simpa using heq)
  constructor
  · intro hkk
    have hnil2 := filter_sibs_nil_self hdiff hIvs hb.1 hb.2 hle (Nat.le_refl hi') hkk
    have habk : A hi' ≠ B hi' := (hdiff hi' (by omega) hb.2).mpr hkk
    simp only [divsT, hpre, List.filter_append, hprenil, hnil2, List.map_nil,
      List.nil_append, List.append_nil, if_pos habk]
    rw [hkk]
  · intro hkk
    obtain ⟨u, lo2, hi2, hfil, hsubu, hIvu, hx1, hx2, hd1, hd2, hd3, hht⟩ :=
      filter_sibs_singleton hdiff hi' hIvs hb.1 hb.2 hle (Nat.le_refl hi')
        hks1 hks2 hkk
    have habk : ¬ (A hi' ≠ B hi') := by
      intro hne
      exact hkk ((hdiff hi' (by omega) hb.2).mp hne)
    refine ⟨u, lo2, hi2, ?_, SubT_trans hsubu hsub, hIvu, hd1, hd2,
      maxLeaf_eq hIvu, hht⟩
    simp only [divsT, hpre, List.filter_append, hprenil, hfil, List.nil_append,
      if_neg habk, List.append_nil, List.map_cons, List.map_nil, addrT]

theorem Iv_leaf_inv {m lo hi : Nat} (h : Iv (MTree.leafT m) lo hi) :
    lo = m ∧ hi = m := by
  cases h
  exact ⟨rfl, rfl⟩

/-- Fuel-indexed convergence: starting the loop at the rightmost leaf
of any subtree that contains `kstar`, the loop answers `Some kstar`
within `theight s + 1` iterations. -/
theorem proveLoop_reaches {A B : Nat → Nat} {n kstar : Nat}
    (hdiff : ∀ i, 1 ≤ i → i ≤ n → (A i ≠ B i ↔ i = kstar))
    {t0 : MTree} (hIv0 : Iv t0 1 n) (hk1 : 1 ≤ kstar) (hk2 : kstar ≤ n) :
    ∀ (fuel : Nat) (s : MTree) (lo' hi' : Nat), SubT s t0 → Iv s lo' hi' →
      lo' ≤ kstar → kstar ≤ hi' → theight s < fuel →
      proveLoopT A B t0 fuel (maxLeaf s) = some (some kstar) := by
  intro fuel
  induction fuel with
  | zero =>
    intro s lo' hi' _ _ _ _ h
    omega
  | succ f ih =>
    intro s lo' hi' hsub hIvs hs1 hs2 hfuel
    have hroot : hashT A t0 ≠ hashT B t0 :=
      (hashT_ne_iff hdiff hIv0 (Nat.le_refl 1) (Nat.le_refl n)).mpr ⟨hk1, hk2⟩
    have hml : maxLeaf s = hi' := maxLeaf_eq hIvs
    rw [hml]
    simp only [proveLoopT, proveT, if_neg hroot]
    obtain ⟨hstep1, hstep2⟩ := divs_step hdiff hIv0 hsub hIvs hs1 hs2
    by_cases hkk : hi' = kstar
    · rw [hstep1 hkk]
      simp [minPair]
    · obtain ⟨u, lo2, hi2, hdiv, hsubu, hIvu, hd1, hd2, hmaxu, hht⟩ := hstep2 hkk
      rw [hdiv]
      simp only [minPair, List.foldl_nil]
      by_cases hhu : theight u = 0
      · obtain ⟨m, rfl⟩ := theight_eq_zero hhu
        obtain ⟨hlo, hhi⟩ := Iv_leaf_inv hIvu
        have hmk : m = kstar := by omega
        simp [maxLeaf, theight, hmk]
      · simp only [if_neg hhu]
        exact ih u lo2 hi2 hsubu hIvu hd1 hd2 (by omega)

theorem log2fuel_le : ∀ (f m : Nat), 1 ≤ m → m ≤ f → 2 ^ log2fuel f m ≤ m := by
  intro f
  induction f with
  | zero =>
    intro m h1 h2
    omega
  | succ f ih =>
    intro m h1 h2
    by_cases hm : m < 2
    · simp only [log2fuel, if_pos hm]
      omega
    · simp only [log2fuel, if_neg hm]
      have hrec := ih (m / 2) (by omega) (by omega)
      have hpow : (2 : Nat) ^ (log2fuel f (m / 2) + 1) = 2 ^ log2fuel f (m / 2) * 2 :=
        pow_succ 2 _
      omega

theorem log2fuel_lt : ∀ (f m : Nat), m ≤ f → m < 2 ^ (log2fuel f m + 1) := by
  intro f
  induction f with
  | zero =>
    intro m h2
    simp only [log2fuel]
    omega
  | succ f ih =>
    intro m h2
    by_cases hm : m < 2
    · simp only [log2fuel, if_pos hm]
      omega
    · simp only [log2fuel, if_neg hm]
      have hrec := ih (m / 2) (by omega)
      have hpow : (2 : Nat) ^ (log2fuel f (m / 2) + 1 + 1) =
          2 ^ (log2fuel f (m / 2) + 1) * 2 := pow_succ 2 _
      omega

theorem nlog2_le {m : Nat} (h : 1 ≤ m) : 2 ^ nlog2 m ≤ m :=
  log2fuel_le m m h (Nat.le_refl m)

theorem nlog2_lt (m : Nat) : m < 2 ^ (nlog2 m + 1) :=
  log2fuel_lt m m (Nat.le_refl m)

theorem ptIv : ∀ (h lo : Nat), Iv (pt lo h) lo (lo + 2 ^ h - 1) := by
  intro h
  induction h with
  | zero =>
    intro lo
    have e : lo + 2 ^ 0 - 1 = lo := by norm_num
    rw [e]
    exact Iv.leafI lo
  | succ h ih =>
    intro lo
    have hp : 0 < 2 ^ h := pow_pos (by norm_num) h
    have hs : (2 : Nat) ^ (h + 1) = 2 ^ h * 2 := pow_succ 2 h
    show Iv (MTree.nodeT (pt lo h) (pt (lo + 2 ^ h) h)) lo (lo + 2 ^ (h + 1) - 1)
    refine Iv.nodeI (ih lo) ?_
    have e1 : lo + 2 ^ h - 1 + 1 = lo + 2 ^ h := by omega
    have e2 : lo + 2 ^ (h + 1) - 1 = lo + 2 ^ h + 2 ^ h - 1 := by omega
    rw [e1, e2]
    exact ih (lo + 2 ^ h)

theorem ptHeight : ∀ (h lo : Nat), theight (pt lo h) = h := by
  intro h
  induction h with
  | zero => intro lo; rfl
  | succ h ih =>
    intro lo
    show theight (MTree.nodeT (pt lo h) (pt (lo + 2 ^ h) h)) = h + 1
    simp only [theight, ih]
    omega

theorem forestGo_zero : ∀ (f lo : Nat), forestGo f 0 lo = [] := by
  intro f lo
  cases f with
  | zero => rfl
  | succ f => simp [forestGo]

theorem forestGo_ne_nil : ∀ (f m lo : Nat), 1 ≤ m → m ≤ f →
    forestGo f m lo ≠ [] := by
  intro f m lo h1 h2
  match f with
  | 0 => omega
  | ff + 1 =>
    simp only [forestGo]
    rw [if_neg (by omega)]
    simp

theorem spineFold_cons {t : MTree} {rest : List MTree} (h : rest ≠ []) :
    spineFold (t :: rest) = MTree.nodeT t (spineFold rest) := by
  match rest with
  | [] => exact absurd rfl h
  | a :: l => rfl

theorem forestGo_iv : ∀ (f m lo : Nat), 1 ≤ m → m ≤ f →
    Iv (spineFold (forestGo f m lo)) lo (lo + m - 1) := by
  intro f
  induction f with
  | zero =>
    intro m lo h1 h2
    omega
  | succ f ih =>
    intro m lo h1 h2
    have hble := nlog2_le h1
    have hblt := nlog2_lt m
    have hbpos : 0 < 2 ^ nlog2 m := pow_pos (by norm_num) _
    have hs : (2 : Nat) ^ (nlog2 m + 1) = 2 ^ nlog2 m * 2 := pow_succ 2 _
    simp only [forestGo]
    rw [if_neg (by omega)]
    by_cases hrest : m - 2 ^ nlog2 m = 0
    · rw [hrest, forestGo_zero]
      have hm : m = 2 ^ nlog2 m := by omega
      have := ptIv (nlog2 m) lo
      show Iv (spineFold [pt lo (nlog2 m)]) lo (lo + m - 1)
      rw [show spineFold [pt lo (nlog2 m)] = pt lo (nlog2 m) from rfl]
      rw [show lo + m - 1 = lo + 2 ^ nlog2 m - 1 from by omega]
      exact this
    · have hrest1 : 1 ≤ m - 2 ^ nlog2 m := by omega
      have hrest2 : m - 2 ^ nlog2 m ≤ f := by omega
      rw [spineFold_cons (forestGo_ne_nil f _ _ hrest1 hrest2)]
      have hr := ih (m - 2 ^ nlog2 m) (lo + 2 ^ nlog2 m) hrest1 hrest2
      have e1 : lo + 2 ^ nlog2 m - 1 + 1 = lo + 2 ^ nlog2 m := by omega
      have e2 : lo + 2 ^ nlog2 m + (m - 2 ^ nlog2 m) - 1 = lo + m - 1 := by omega
      refine Iv.nodeI (ptIv (nlog2 m) lo) ?_
      rw [e1]
      rw [← e2]
      exact hr

theorem forestGo_height : ∀ (f m lo : Nat), 1 ≤ m → m ≤ f →
    theight (spineFold (forestGo f m lo)) ≤ Nat.clog 2 m := by
  intro f
  induction f with
  | zero =>
    intro m lo h1 h2
    omega
  | succ f ih =>
    intro m lo h1 h2
    have hble := nlog2_le h1
    have hblt := nlog2_lt m
    have hbpos : 0 < 2 ^ nlog2 m := pow_pos (by norm_num) _
    have hs : (2 : Nat) ^ (nlog2 m + 1) = 2 ^ nlog2 m * 2 := pow_succ 2 _
    simp only [forestGo]
    rw [if_neg (by omega)]
    by_cases hrest : m - 2 ^ nlog2 m = 0
    · rw [hrest, forestGo_zero]
      rw [show spineFold [pt lo (nlog2 m)] = pt lo (nlog2 m) from rfl]
      rw [ptHeight]
      have hm : m = 2 ^ nlog2 m := by omega
      have hcl : Nat.clog 2 m = nlog2 m := by
        conv_lhs => rw [hm]
        exact Nat.clog_pow 2 (nlog2 m) (by norm_num)
      omega
    · have hrest1 : 1 ≤ m - 2 ^ nlog2 m := by omega
      have hrest2 : m - 2 ^ nlog2 m ≤ f := by omega
      rw [spineFold_cons (forestGo_ne_nil f _ _ hrest1 hrest2)]
      have hr := ih (m - 2 ^ nlog2 m) (lo + 2 ^ nlog2 m) hrest1 hrest2
      have hclog1 : Nat.clog 2 (m - 2 ^ nlog2 m) ≤ nlog2 m :=
        (Nat.le_pow_iff_clog_le (by norm_num)).mp (by omega)
      have hclog2 : nlog2 m < Nat.clog 2 m :=
        (Nat.pow_lt_iff_lt_clog (by norm_num)).mp (by omega)
      simp only [theight, ptHeight]
      have hmax : max (nlog2 m) (theight (spineFold
          (forestGo f (m - 2 ^ nlog2 m) (lo + 2 ^ nlog2 m)))) ≤ nlog2 m :=
        max_le (Nat.le_refl _) (le_trans hr hclog1)
      omega

theorem snapT_iv {m : Nat} (hm : 1 ≤ m) : Iv (snapT m) 1 m := by
  have := forestGo_iv m m 1 hm (Nat.le_refl m)
  rw [show 1 + m - 1 = m from by omega] at this
  exact this

theorem snapT_height {m : Nat} (hm : 1 ≤ m) : theight (snapT m) ≤ Nat.clog 2 m :=
  forestGo_height m m 1 hm (Nat.le_refl m)

/-- C2. For two logs of equal size `n ≥ 1`, the convergence loop of
`SlateCUT::prove` started at `k = n` with fuel `⌈log₂ n⌉ + 1`: when the
logs differ in exactly one leaf `kstar`, the loop terminates within the
fuel and returns `Some kstar` (each round's divergent set is the single
subtree containing `kstar`, whose level drops strictly from at most
`⌈log₂ n⌉`); when the logs are identical, the first round compares
equal roots and returns `None`. -/
theorem c2_prove_convergence (n kstar : Nat) (A B : Nat → Nat) (hn : 1 ≤ n) :
    (1 ≤ kstar → kstar ≤ n →
      (∀ i, 1 ≤ i → i ≤ n → (A i ≠ B i ↔ i = kstar)) →
      proveLoopT A B (snapT n) (Nat.clog 2 n + 1) n = some (some kstar)) ∧
    ((∀ i, 1 ≤ i → i ≤ n → A i = B i) →
      proveLoopT A B (snapT n) (Nat.clog 2 n + 1) n = some none) := by
  have hiv := snapT_iv hn
  constructor
  · intro hk1 hk2 hdiff
    have hml : maxLeaf (snapT n) = n := maxLeaf_eq hiv
    have hres := proveLoop_reaches hdiff hiv hk1 hk2 (Nat.clog 2 n + 1) (snapT n) 1 n
      (SubT.reflS _) hiv hk1 hk2 (by have := snapT_height hn; omega)
    rw [hml] at hres
    exact hres
  · intro hsame
    have heq : hashT A (snapT n) = hashT B (snapT n) := hashT_congr hiv hsame
    simp only [proveLoopT, proveT, if_pos heq]

/-- C2 witness: logs of size 5 differing exactly at leaf 2 converge to
`Some 2` within `⌈log₂ 5⌉ + 1 = 4` iterations, and identical logs of
size 5 report `None`. -/
theorem c2_prove_convergence_witness :
    proveLoopT (fun i => i) (fun i => if i = 2 then 100 else i) (snapT 5)
      (Nat.clog 2 5 + 1) 5 = some (some 2) ∧
    proveLoopT (fun i => i) (fun i => i) (snapT 5)
      (Nat.clog 2 5 + 1) 5 = some none := by
  constructor
  · refine (c2_prove_convergence 5 2 (fun i => i) (fun i => if i = 2 then 100 else i)
      (by decide)).1 (by decide) (by decide) ?_
    intro i h1 h2
    interval_cases i <;> simp
  · exact (c2_prove_convergence 5 2 (fun i => i) (fun i => i) (by decide)).2
      (fun i _ _ => rfl)
